import Mathlib

/-
Verification development for the `scan_dir` crate (directory-entry traversal
with a configurable filter policy).

Shallow embedding notes.

The external collaborators (std::fs::read_dir, DirEntry, file_type, metadata)
are modelled by an abstract directory-listing tree `Scan.Tree`: a `Tree` value
represents one directory listing, i.e. the exact sequence of results that
`ReadDir::next()` produces for that directory, in listing order.

  * `nilL` — end of listing (`None`).
  * `failC rest` — a mid-listing pull failure (`Some(Err(e))`), then `rest`.
  * `entC name dec ftype listable sub rest` — a successfully pulled child
    (`Some(Ok(entry))`), then `rest`, where
      - `name` is the child's file name; `dec` tells whether
        `OsString::into_string()` succeeds on it (utf-8 decodable);
      - `ftype` is the result of `entry.file_type()` (`none` = `Err(e)`),
        classifying the entry itself without following symlinks, exactly as
        `DirEntry::file_type` does;
      - `listable`/`sub` give the result of `read_dir(entry.path())`:
        if `listable` then the child's own listing is `sub`, otherwise
        `read_dir` fails.  These two fields are only ever consulted when the
        code under scrutiny actually calls `read_dir` on the child.

Paths are modelled as lists of name components relative to (and including
nothing of) the scan root; the root directory itself has path `[]`, and a
child named `n` of the directory at path `p` has path `p ++ [n]`, modelling
`entry.path()`.  The payload of `io::Error` values is dropped: an
`Error::Io(e, path)` is modelled as `Error.io path`.

All definitions are computable and structural, so concrete runs evaluate by
`decide` / `rfl`.
-/

namespace Scan

/-- File type classification, mirroring `std::fs::FileType`: `is_dir`,
`is_file` and `is_symlink` are mutually exclusive and may all be false
(e.g. sockets, fifos, device files), which `other` stands for. -/
inductive FType where
  | file | directory | symlink | other
deriving DecidableEq, Repr

/-- `scan_dir::Error` (lib.rs): `Io(err, path)` for directory-reading /
stat failures (the `io::Error` payload is dropped) and `Decode(path)` for
non-decodable file names. -/
inductive Error where
  | io (path : List String)
  | decode (path : List String)
deriving DecidableEq, Repr

/-- `ScanDir` settings structure (lib.rs lines 146-152). -/
structure ScanDir where
  skip_hidden : Bool
  skip_dirs : Bool
  skip_files : Bool
  skip_backup : Bool
  skip_symlinks : Bool
deriving DecidableEq, Repr

/-- Character-list version of Rust's `str::starts_with` test:
`chPre p l` holds iff `p` is an initial segment of `l`. -/
def chPre : List Char → List Char → Bool
  | [], _ => true
  | _ :: _, [] => false
  | a :: x, b :: y => a == b && chPre x y

/-- Rust `name.starts_with(pat)`. -/
def strStartsWith (a b : String) : Bool := chPre b.data a.data

/-- Rust `name.ends_with(pat)`. -/
def strEndsWith (a b : String) : Bool := chPre b.data.reverse a.data.reverse

/-- `filter::name_matches` (filter.rs lines 34-50): the purely lexical
hidden/backup rules. -/
def name_matches (s : ScanDir) (name : String) : Bool :=
  if s.skip_hidden && strStartsWith name "." then false
  else if s.skip_backup && strEndsWith name "~" then false
  else if s.skip_backup && strEndsWith name ".bak" then false
  else if s.skip_backup && (strStartsWith name "#" && strEndsWith name "#") then false
  else true

/-- `filter::matches` (filter.rs lines 9-32).  `ftype` is the result of
`entry.file_type()`; `resolved` is the result of
`metadata(entry.path()).file_type()` (consulted only for symlinks when
`skip_symlinks` is off).  `none` output models a propagated `io::Error`
(the `try!` calls); `some b` models `Ok(b)`. -/
def fmatches (s : ScanDir) (ftype : Option FType) (resolved : Option FType)
    (name : String) : Option Bool :=
  if !name_matches s name then some false
  else if s.skip_dirs || s.skip_files then
    match ftype with
    | none => none
    | some t0 =>
      if t0 = FType.symlink then
        if s.skip_symlinks then some false
        else
          match resolved with
          | none => none
          | some t1 =>
            if s.skip_dirs && t1 = FType.directory then some false
            else if s.skip_files && t1 = FType.file then some false
            else some true
      else
        if s.skip_dirs && t0 = FType.directory then some false
        else if s.skip_files && t0 = FType.file then some false
        else some true
  else some true

/-- `iter::matches`, the private single-level filter (iter.rs lines 84-111).
It repeats the name checks inline and, unlike `filter::matches`, never
consults `skip_symlinks` and never resolves a symlink's target: `ftype` (the
`entry.file_type()` result) is used directly. -/
def imatches (s : ScanDir) (ftype : Option FType) (name : String) : Option Bool :=
  if s.skip_hidden && strStartsWith name "." then some false
  else if s.skip_backup && strEndsWith name "~" then some false
  else if s.skip_backup && strEndsWith name ".bak" then some false
  else if s.skip_backup && (strStartsWith name "#" && strEndsWith name "#") then some false
  else if s.skip_dirs || s.skip_files then
    match ftype with
    | none => none
    | some t =>
      if s.skip_dirs && t = FType.directory then some false
      else if s.skip_files && t = FType.file then some false
      else some true
  else some true

/-- `ScanDir::all()` (lib.rs lines 158-166). -/
def ScanDir.all : ScanDir :=
  ⟨false, false, false, false, false⟩

/-- `ScanDir::files()` (lib.rs lines 170-178). -/
def ScanDir.files : ScanDir :=
  ⟨true, true, false, true, false⟩

/-- `ScanDir::dirs()` (lib.rs lines 182-190). -/
def ScanDir.dirs : ScanDir :=
  ⟨true, false, true, true, false⟩

/-- The `ScanDir::skip_backup` setter (lib.rs lines 242-245).  Transcribed
verbatim from the source: the body is `self.skip_files = flag; self`. -/
def ScanDir.skip_backup_set (s : ScanDir) (flag : Bool) : ScanDir :=
  { s with skip_files := flag }

/-- One directory listing, as the sequence of `ReadDir::next()` results
(see the header comment for the reading of each constructor). -/
inductive Tree where
  | nilL : Tree
  | failC (rest : Tree) : Tree
  | entC (name : String) (dec : Bool) (ftype : Option FType)
         (listable : Bool) (sub : Tree) (rest : Tree) : Tree
deriving DecidableEq, Repr

/-- Concatenation of two listings (a listing is a sequence of pull results). -/
def Tree.app : Tree → Tree → Tree
  | .nilL, t => t
  | .failC r, t => .failC (r.app t)
  | .entC n d ft l sub r, t => .entC n d ft l sub (r.app t)

/-- Names of the successfully pulled children of a listing, in order. -/
def treeNames : Tree → List String
  | .nilL => []
  | .failC r => treeNames r
  | .entC n _ _ _ _ r => n :: treeNames r

/-- Boolean membership in a name list. -/
def memStr (x : String) : List String → Bool
  | [] => false
  | y :: ys => x == y || memStr x ys

/-- Well-formedness of a directory tree: within every listing the child
names are pairwise distinct (as they are on a real filesystem), recursively.
-/
def wfTree : Tree → Bool
  | .nilL => true
  | .failC r => wfTree r
  | .entC n _ _ _ sub r => !memStr n (treeNames r) && wfTree sub && wfTree r

/-- Number of pull results in a listing, counting nested sub-listings. -/
def treeSize : Tree → Nat
  | .nilL => 0
  | .failC r => 1 + treeSize r
  | .entC _ _ _ _ sub r => 1 + treeSize sub + treeSize r

/- ------------------------------------------------------------------ -/
/- The single-level iterator (iter.rs), drained to completion.          -/
/- ------------------------------------------------------------------ -/

/-- The guarded error-slot update of `Iter::next` (iter.rs: every write is
preceded by `if self.error.is_ok()`, "only if there was no error yet"). -/
def keepFirst : Option Error → Error → Option Error
  | none, e => some e
  | some e0, _ => some e0

/-- The `Iter::next` loop (iter.rs lines 37-78), drained: processes the
remaining listing left to right, producing the yielded `(path, name)` pairs
and the final state of the single error slot. -/
def iterRun (s : ScanDir) (p : List String) :
    Tree → Option Error → List (List String × String) × Option Error
  | .nilL, err => ([], err)
  | .failC rest, err => iterRun s p rest (keepFirst err (Error.io p))
  | .entC n dec ftype _ _ rest, err =>
    if dec then
      match imatches s ftype n with
      | some true =>
        let r := iterRun s p rest err
        ((p ++ [n], n) :: r.1, r.2)
      | some false => iterRun s p rest err
      | none => iterRun s p rest (keepFirst err (Error.io (p ++ [n])))
    else iterRun s p rest (keepFirst err (Error.decode (p ++ [n])))

/-- `ScanDir::read` (lib.rs lines 269-276) with the closure draining the
iterator: `iter::new` seeds the error slot (`Err(Io(e, root))` when
`read_dir(root)` fails, in which case the iterator is empty), then the
whole iterator is drained.  `root = none` models an unopenable root. -/
def read (s : ScanDir) (root : Option Tree) (p : List String) :
    List (List String × String) × Option Error :=
  match root with
  | some t => iterRun s p t none
  | none => ([], some (Error.io p))

/- ------------------------------------------------------------------ -/
/- The recursive walker (walk.rs).                                      -/
/- ------------------------------------------------------------------ -/

/-- One level of in-progress iteration: the remaining part of an open
directory listing together with that directory's path (`(ReadDir, PathBuf)`
in walk.rs). -/
structure Frame where
  rest : Tree
  path : List String
deriving DecidableEq, Repr

/-- The `Walker` state (walk.rs lines 20-25): optional current frame and
the traversal stack, plus the shared error collection (the `&mut Vec<Error>`
it appends to).  The settings are passed separately. -/
structure Walker where
  cur : Option Frame
  stack : List Frame
  errors : List Error
deriving DecidableEq, Repr

/-- Outcome of executing one iteration of the `loop` in `Walker::next`
(walk.rs lines 45-105): the body either returns a yielded pair, falls
through to the next loop iteration, or returns `None` (terminal). -/
inductive StepOut where
  | yielded (y : List String × String)
  | next
  | stop
deriving DecidableEq, Repr

/-- One iteration of the `loop` body of `Walker::next` (walk.rs lines
44-109), transcribed arm by arm:

  * no current frame: `return None`;
  * end of current listing: pop the stack into the current frame, or break
    (which clears `cur` and returns `None`);
  * `Some(Err(e))`: push `Io(e, current directory path)` and continue;
  * `Some(Ok(entry))`: decode the name (failure: push `Decode(entry.path())`
    and continue); apply `name_matches` (reject: continue); query
    `entry.file_type()` (failure: push `Io(e, entry.path())` and continue);
    if it is a directory, try `read_dir`: on success push the current frame
    and switch to the child listing, on failure push `Io(e, entry.path())`;
    in both cases yield the entry unless `skip_dirs`; a non-directory is
    yielded unless `skip_files`. -/
def step (s : ScanDir) (w : Walker) : Walker × StepOut :=
  match w.cur with
  | none => (w, StepOut.stop)
  | some f =>
    match f.rest with
    | Tree.nilL =>
      match w.stack with
      | g :: st => (Walker.mk (some g) st w.errors, StepOut.next)
      | [] => (Walker.mk none w.stack w.errors, StepOut.stop)
    | Tree.failC rest =>
      (Walker.mk (some (Frame.mk rest f.path)) w.stack
        (w.errors ++ [Error.io f.path]), StepOut.next)
    | Tree.entC n dec ftype listable sub rest =>
      if dec then
        if name_matches s n then
          match ftype with
          | none =>
            (Walker.mk (some (Frame.mk rest f.path)) w.stack
              (w.errors ++ [Error.io (f.path ++ [n])]), StepOut.next)
          | some t =>
            if t = FType.directory then
              if listable then
                let w2 : Walker :=
                  Walker.mk (some (Frame.mk sub (f.path ++ [n])))
                    (Frame.mk rest f.path :: w.stack) w.errors
                if s.skip_dirs then (w2, StepOut.next)
                else (w2, StepOut.yielded (f.path ++ [n], n))
              else
                let w2 : Walker :=
                  Walker.mk (some (Frame.mk rest f.path)) w.stack
                    (w.errors ++ [Error.io (f.path ++ [n])])
                if s.skip_dirs then (w2, StepOut.next)
                else (w2, StepOut.yielded (f.path ++ [n], n))
            else
              if s.skip_files then
                (Walker.mk (some (Frame.mk rest f.path)) w.stack w.errors,
                 StepOut.next)
              else
                (Walker.mk (some (Frame.mk rest f.path)) w.stack w.errors,
                 StepOut.yielded (f.path ++ [n], n))
        else
          (Walker.mk (some (Frame.mk rest f.path)) w.stack w.errors,
           StepOut.next)
      else
        (Walker.mk (some (Frame.mk rest f.path)) w.stack
          (w.errors ++ [Error.decode (f.path ++ [n])]), StepOut.next)

/-- Size of a frame: remaining pull results (nested ones included). -/
def frameSize (f : Frame) : Nat := treeSize f.rest

/-- Termination measure for driving the walker loop. -/
def wMeasure (w : Walker) : Nat :=
  2 * ((match w.cur with | none => 0 | some f => frameSize f) +
       (w.stack.map frameSize).sum) +
  (match w.cur with | none => 0 | some _ => 1) + w.stack.length

/-- Every loop iteration that does not return `None` strictly decreases the
measure. -/
theorem step_lt (s : ScanDir) (w : Walker) (h : (step s w).2 ≠ StepOut.stop) :
    wMeasure (step s w).1 < wMeasure w := by
  rcases w with ⟨cur, stack, errors⟩
  cases cur with
  | none => simp [step] at h
  | some f =>
    rcases f with ⟨rest, path⟩
    cases rest with
    | nilL =>
      cases stack with
      | nil => simp [step] at h
      | cons g st =>
        simp only [step, wMeasure, frameSize, List.map_cons, List.sum_cons,
          List.length_cons]
        omega
    | failC r =>
      simp only [step, wMeasure, frameSize, treeSize]
      omega
    | entC n dec ftype listable sub r =>
      simp only [step]
      repeat' split
      all_goals simp only [wMeasure, frameSize, treeSize, List.map_cons,
        List.sum_cons, List.length_cons]
      all_goals omega

/-- Draining the walker: repeatedly execute loop iterations of
`Walker::next`, collecting every yielded pair, until the walker reports
end-of-sequence; returns the yields and the final error collection. -/
def drain (s : ScanDir) (w : Walker) : List (List String × String) × List Error :=
  if h : (step s w).2 = StepOut.stop then ([], (step s w).1.errors)
  else
    let r := drain s (step s w).1
    match (step s w).2 with
    | StepOut.yielded y => (y :: r.1, r.2)
    | _ => r
termination_by wMeasure w
decreasing_by exact step_lt s w h

/-- `walk::new` (walk.rs lines 27-40): try to open the root listing; on
failure push one `Io` error tagged with the root path and leave no current
frame.  `root = none` models `read_dir(path)` failing. -/
def Walker.new (root : Option Tree) (p : List String) : Walker :=
  match root with
  | some t => { cur := some ⟨t, p⟩, stack := [], errors := [] }
  | none => { cur := none, stack := [], errors := [Error.io p] }

/-- `ScanDir::walk` (lib.rs lines 305-316) with the closure draining the
walker: construct the walker over the root and drain it; the pair of all
yielded entries and the accumulated error collection. -/
def walk (s : ScanDir) (root : Option Tree) (p : List String) :
    List (List String × String) × List Error :=
  drain s (Walker.new root p)

/- ------------------------------------------------------------------ -/
/- Reference recursion for the walker, and the bridge to `drain`.       -/
/- ------------------------------------------------------------------ -/

/-- Reference recursion: what processing one directory listing at path `p`
contributes, entry blocks in listing order, the contribution of a descended
directory placed between the directory's own yield and the later siblings.
`drain_eq` below proves that draining the `Walker` state machine computes
exactly this. -/
def walkRef (s : ScanDir) (p : List String) :
    Tree → List (List String × String) × List Error
  | .nilL => ([], [])
  | .failC rest =>
    let r := walkRef s p rest
    (r.1, Error.io p :: r.2)
  | .entC n dec ftype listable sub rest =>
    if dec then
      if name_matches s n then
        match ftype with
        | none =>
          let r := walkRef s p rest
          (r.1, Error.io (p ++ [n]) :: r.2)
        | some t =>
          if t = FType.directory then
            if listable then
              let rs := walkRef s (p ++ [n]) sub
              let r := walkRef s p rest
              ((if s.skip_dirs then [] else [(p ++ [n], n)]) ++ rs.1 ++ r.1,
               rs.2 ++ r.2)
            else
              let r := walkRef s p rest
              ((if s.skip_dirs then [] else [(p ++ [n], n)]) ++ r.1,
               Error.io (p ++ [n]) :: r.2)
          else
            let r := walkRef s p rest
            ((if s.skip_files then [] else [(p ++ [n], n)]) ++ r.1, r.2)
      else walkRef s p rest
    else
      let r := walkRef s p rest
      (r.1, Error.decode (p ++ [n]) :: r.2)

/-- Contribution of the frames still on the traversal stack (top first). -/
def procStack (s : ScanDir) : List Frame → List (List String × String) × List Error
  | [] => ([], [])
  | f :: st =>
    let r := walkRef s f.path f.rest
    let rs := procStack s st
    (r.1 ++ rs.1, r.2 ++ rs.2)

/-- Declarative description of what draining a walker state produces. -/
def drainSpec (s : ScanDir) (w : Walker) : List (List String × String) × List Error :=
  match w.cur with
  | none => ([], w.errors)
  | some f =>
    let r := walkRef s f.path f.rest
    let rs := procStack s w.stack
    (r.1 ++ rs.1, w.errors ++ (r.2 ++ rs.2))

theorem drain_eq_aux (s : ScanDir) :
    ∀ (N : Nat) (w : Walker), wMeasure w ≤ N → drain s w = drainSpec s w := by
  intro N
  induction N with
  | zero =>
    intro w hw
    rcases w with ⟨cur, stack, errors⟩
    cases cur with
    | none => rw [drain]; simp [step, drainSpec]
    | some f => simp [wMeasure] at hw
  | succ N ih =>
    intro w hw
    rcases w with ⟨cur, stack, errors⟩
    cases cur with
    | none => rw [drain]; simp [step, drainSpec]
    | some f =>
      rcases f with ⟨rest, path⟩
      cases rest with
      | nilL =>
        cases stack with
        | nil =>
          rw [drain]; simp [step, drainSpec, walkRef, procStack]
        | cons g st =>
          rw [drain]
          simp only [step]
          rw [ih (Walker.mk (some g) st errors)
            (by simp only [wMeasure, frameSize, treeSize, List.map_cons,
                  List.sum_cons, List.length_cons] at hw ⊢; omega)]
          simp [drainSpec, walkRef, procStack]
      | failC r =>
        rw [drain]
        simp only [step]
        rw [ih (Walker.mk (some (Frame.mk r path)) stack
              (errors ++ [Error.io path]))
          (by simp only [wMeasure, frameSize, treeSize, List.map_cons,
                List.sum_cons, List.length_cons] at hw ⊢; omega)]
        simp [drainSpec, walkRef, procStack]
      | entC n dec ftype listable sub r =>
        have hle : ∀ t : Tree, treeSize t ≤ treeSize sub + treeSize r →
            True := fun _ _ => trivial
        cases dec with
        | false =>
          rw [drain]
          simp only [step, Bool.false_eq_true, if_false]
          rw [ih (Walker.mk (some (Frame.mk r path)) stack
                (errors ++ [Error.decode (path ++ [n])]))
            (by simp only [wMeasure, frameSize, treeSize, List.map_cons,
                  List.sum_cons, List.length_cons] at hw ⊢; omega)]
          simp [drainSpec, walkRef, procStack]
        | true =>
          cases hnm : name_matches s n with
          | false =>
            rw [drain]
            simp only [step, hnm, if_true, Bool.false_eq_true, if_false]
            rw [ih (Walker.mk (some (Frame.mk r path)) stack errors)
              (by simp only [wMeasure, frameSize, treeSize, List.map_cons,
                    List.sum_cons, List.length_cons] at hw ⊢; omega)]
            simp [drainSpec, walkRef, procStack, hnm]
          | true =>
            cases ftype with
            | none =>
              rw [drain]
              simp only [step, hnm, if_true]
              rw [ih (Walker.mk (some (Frame.mk r path)) stack
                    (errors ++ [Error.io (path ++ [n])]))
                (by simp only [wMeasure, frameSize, treeSize, List.map_cons,
                      List.sum_cons, List.length_cons] at hw ⊢; omega)]
              simp [drainSpec, walkRef, procStack, hnm]
            | some t =>
              by_cases ht : t = FType.directory
              · subst ht
                cases listable with
                | true =>
                  cases hsd : s.skip_dirs with
                  | true =>
                    rw [drain]
                    simp only [step, hnm, hsd, if_true, reduceIte]
                    rw [ih (Walker.mk (some (Frame.mk sub (path ++ [n])))
                          (Frame.mk r path :: stack) errors)
                      (by simp only [wMeasure, frameSize, treeSize,
                            List.map_cons, List.sum_cons, List.length_cons]
                            at hw ⊢; omega)]
                    simp [drainSpec, walkRef, procStack, hnm, hsd]
                  | false =>
                    rw [drain]
                    simp only [step, hnm, hsd, if_true, Bool.false_eq_true,
                      if_false, reduceIte]
                    rw [ih (Walker.mk (some (Frame.mk sub (path ++ [n])))
                          (Frame.mk r path :: stack) errors)
                      (by simp only [wMeasure, frameSize, treeSize,
                            List.map_cons, List.sum_cons, List.length_cons]
                            at hw ⊢; omega)]
                    simp [drainSpec, walkRef, procStack, hnm, hsd]
                | false =>
                  cases hsd : s.skip_dirs with
                  | true =>
                    rw [drain]
                    simp only [step, hnm, hsd, if_true, Bool.false_eq_true,
                      if_false, reduceIte]
                    rw [ih (Walker.mk (some (Frame.mk r path)) stack
                          (errors ++ [Error.io (path ++ [n])]))
                      (by simp only [wMeasure, frameSize, treeSize,
                            List.map_cons, List.sum_cons, List.length_cons]
                            at hw ⊢; omega)]
                    simp [drainSpec, walkRef, procStack, hnm, hsd]
                  | false =>
                    rw [drain]
                    simp only [step, hnm, hsd, if_true, Bool.false_eq_true,
                      if_false, reduceIte]
                    rw [ih (Walker.mk (some (Frame.mk r path)) stack
                          (errors ++ [Error.io (path ++ [n])]))
                      (by simp only [wMeasure, frameSize, treeSize,
                            List.map_cons, List.sum_cons, List.length_cons]
                            at hw ⊢; omega)]
                    simp [drainSpec, walkRef, procStack, hnm, hsd]
              · cases hsf : s.skip_files with
                | true =>
                  rw [drain]
                  simp only [step, hnm, ht, hsf, if_true, Bool.false_eq_true,
                    if_false, reduceIte]
                  rw [ih (Walker.mk (some (Frame.mk r path)) stack errors)
                    (by simp only [wMeasure, frameSize, treeSize,
                          List.map_cons, List.sum_cons, List.length_cons]
                          at hw ⊢; omega)]
                  simp [drainSpec, walkRef, procStack, hnm, ht, hsf]
                | false =>
                  rw [drain]
                  simp only [step, hnm, ht, hsf, if_true, Bool.false_eq_true,
                    if_false, reduceIte]
                  rw [ih (Walker.mk (some (Frame.mk r path)) stack errors)
                    (by simp only [wMeasure, frameSize, treeSize,
                          List.map_cons, List.sum_cons, List.length_cons]
                          at hw ⊢; omega)]
                  simp [drainSpec, walkRef, procStack, hnm, ht, hsf]

/-- Draining a walker state computes the declarative description. -/
theorem drain_eq (s : ScanDir) (w : Walker) : drain s w = drainSpec s w :=
  drain_eq_aux s (wMeasure w) w (Nat.le_refl _)

/-- The whole recursive walk over an openable root is exactly the reference
recursion over the root listing. -/
theorem walk_eq (s : ScanDir) (t : Tree) (p : List String) :
    walk s (some t) p = walkRef s p t := by
  rw [walk, Walker.new, drain_eq]
  simp [drainSpec, procStack]

/- ------------------------------------------------------------------ -/
/- Path prefix order.                                                  -/
/- ------------------------------------------------------------------ -/

/-- `pfx p q`: the path `p` is an initial segment of the path `q`
(so the entry at `q` lives at or inside the directory at `p`). -/
def pfx : List String → List String → Bool
  | [], _ => true
  | _ :: _, [] => false
  | a :: x, b :: y => a == b && pfx x y

/-- `spfx p q`: `p` is a proper initial segment of `q` (the entry at `q`
lives strictly inside the directory at `p`). -/
def spfx (a b : List String) : Bool := pfx a b && decide (a.length < b.length)

theorem pfx_iff : ∀ (a b : List String), pfx a b = true ↔ ∃ r, b = a ++ r := by
  intro a
  induction a with
  | nil => intro b; simp [pfx]
  | cons x xs ih =>
    intro b
    cases b with
    | nil =>
      simp only [pfx, List.cons_append]
      constructor
      · intro h; cases h
      · rintro ⟨r, hr⟩; cases hr
    | cons y ys =>
      simp only [pfx, Bool.and_eq_true, beq_iff_eq, List.cons_append]
      constructor
      · rintro ⟨rfl, h⟩
        obtain ⟨r, rfl⟩ := (ih ys).1 h
        exact ⟨r, rfl⟩
      · rintro ⟨r, hr⟩
        injection hr with h1 h2
        exact ⟨h1.symm, (ih ys).2 ⟨r, h2⟩⟩

theorem pfx_refl (a : List String) : pfx a a = true :=
  (pfx_iff a a).2 ⟨[], by simp⟩

theorem pfx_append (a l : List String) : pfx a (a ++ l) = true :=
  (pfx_iff _ _).2 ⟨l, rfl⟩

theorem pfx_trans {a b c : List String} (h1 : pfx a b = true)
    (h2 : pfx b c = true) : pfx a c = true := by
  obtain ⟨r, rfl⟩ := (pfx_iff _ _).1 h1
  obtain ⟨q, rfl⟩ := (pfx_iff _ _).1 h2
  exact (pfx_iff _ _).2 ⟨r ++ q, by simp⟩

theorem pfx_length {a b : List String} (h : pfx a b = true) :
    a.length ≤ b.length := by
  obtain ⟨r, rfl⟩ := (pfx_iff _ _).1 h
  simp

theorem pfx_same_len {a b c : List String} (h1 : pfx a c = true)
    (h2 : pfx b c = true) (hl : a.length = b.length) : a = b := by
  obtain ⟨r, hr⟩ := (pfx_iff _ _).1 h1
  obtain ⟨q, hq⟩ := (pfx_iff _ _).1 h2
  exact (List.append_inj (hr.symm.trans hq) hl).1

theorem spfx_true_iff {a b : List String} :
    spfx a b = true ↔ pfx a b = true ∧ a.length < b.length := by
  simp [spfx]

/-- A descendant path of `p ++ [n]` is never a proper ancestor of
`p ++ [n]`. -/
theorem desc_not_anc {p b : List String} {n : String}
    (h : pfx (p ++ [n]) b = true) : spfx b (p ++ [n]) = false := by
  cases hs : spfx b (p ++ [n]) with
  | false => rfl
  | true =>
    obtain ⟨h1, h2⟩ := spfx_true_iff.1 hs
    have := pfx_length h
    omega

/-- A path extending `p ++ [n] ++ [m]` lies strictly inside `p ++ [n]`. -/
theorem anc_desc {p b : List String} {n m : String}
    (h : pfx ((p ++ [n]) ++ [m]) b = true) : spfx (p ++ [n]) b = true := by
  refine spfx_true_iff.2 ⟨pfx_trans (pfx_append (p ++ [n]) [m]) h, ?_⟩
  have := pfx_length h
  simp at this ⊢
  omega

/-- Paths lying under two different children of the same directory are
prefix-incomparable: the one under `m` is not a proper ancestor of the one
under `n`. -/
theorem cross {p a b : List String} {n m : String}
    (h1 : pfx (p ++ [n]) a = true) (h2 : pfx (p ++ [m]) b = true)
    (hne : n ≠ m) : spfx b a = false := by
  cases hs : spfx b a with
  | false => rfl
  | true =>
    obtain ⟨hba, _⟩ := spfx_true_iff.1 hs
    have hm : pfx (p ++ [m]) a = true := pfx_trans h2 hba
    have : p ++ [n] = p ++ [m] := pfx_same_len h1 hm (by simp)
    exact (hne (by simpa using this)).elim

/-- A path under the sibling named `m ≠ n` is not strictly inside
`p ++ [n]`. -/
theorem sib_not_desc {p b : List String} {n m : String}
    (h : pfx (p ++ [m]) b = true) (hne : n ≠ m) :
    spfx (p ++ [n]) b = false :=
  cross h (pfx_refl (p ++ [n])) (Ne.symm hne)

theorem memStr_iff (x : String) : ∀ (l : List String),
    memStr x l = true ↔ x ∈ l := by
  intro l
  induction l with
  | nil => simp [memStr]
  | cons y ys ih => simp [memStr, ih]

/-- Splitting a concatenation at a distinguished element. -/
theorem split_append {α : Type} :
    ∀ (A B l1 l2 : List α) (y : α), A ++ B = l1 ++ y :: l2 →
      (∃ l2a, A = l1 ++ y :: l2a ∧ l2 = l2a ++ B) ∨
      (∃ l1b, B = l1b ++ y :: l2 ∧ l1 = A ++ l1b) := by
  intro A
  induction A with
  | nil =>
    intro B l1 l2 y h
    exact Or.inr ⟨l1, by simpa using h, by simp⟩
  | cons x A ih =>
    intro B l1 l2 y h
    cases l1 with
    | nil =>
      simp only [List.cons_append, List.nil_append] at h
      injection h with h1 h2
      exact Or.inl ⟨A, by rw [h1]; simp, h2.symm⟩
    | cons z l1 =>
      simp only [List.cons_append] at h
      injection h with h1 h2
      rcases ih B l1 l2 y h2 with ⟨l2a, ha, hb⟩ | ⟨l1b, ha, hb⟩
      · exact Or.inl ⟨l2a, by rw [h1, ha]; simp, hb⟩
      · exact Or.inr ⟨l1b, ha, by rw [h1, hb]; simp⟩

/- ------------------------------------------------------------------ -/
/- Ordering facts about the reference recursion.                       -/
/- ------------------------------------------------------------------ -/

/-- Every entry yielded while processing the listing at `p` lies at or
under `p ++ [n]` for one of the listing's child names `n`. -/
theorem walkRef_yield_path (s : ScanDir) :
    ∀ (t : Tree) (p : List String) (y : List String × String),
      y ∈ (walkRef s p t).1 →
      ∃ n, n ∈ treeNames t ∧ pfx (p ++ [n]) y.1 = true := by
  intro t
  induction t with
  | nilL => intro p y hy; simp [walkRef] at hy
  | failC r ih =>
    intro p y hy
    simp only [walkRef] at hy
    obtain ⟨n, hn, h⟩ := ih p y hy
    exact ⟨n, by simpa [treeNames] using hn, h⟩
  | entC n dec ftype listable sub r ihsub ihrest =>
    intro p y hy
    have tailfact : y ∈ (walkRef s p r).1 →
        ∃ m, m ∈ treeNames (Tree.entC n dec ftype listable sub r) ∧
          pfx (p ++ [m]) y.1 = true := by
      intro hmem
      obtain ⟨m, hm, h⟩ := ihrest p y hmem
      exact ⟨m, by simp [treeNames, hm], h⟩
    have dirfact : y = (p ++ [n], n) →
        ∃ m, m ∈ treeNames (Tree.entC n dec ftype listable sub r) ∧
          pfx (p ++ [m]) y.1 = true := by
      rintro rfl
      exact ⟨n, by simp [treeNames], pfx_refl _⟩
    have subfact : y ∈ (walkRef s (p ++ [n]) sub).1 →
        ∃ m, m ∈ treeNames (Tree.entC n dec ftype listable sub r) ∧
          pfx (p ++ [m]) y.1 = true := by
      intro hmem
      obtain ⟨m, _, h⟩ := ihsub (p ++ [n]) y hmem
      exact ⟨n, by simp [treeNames],
        pfx_trans (pfx_append (p ++ [n]) [m]) h⟩
    cases dec with
    | false =>
      simp only [walkRef, Bool.false_eq_true, if_false] at hy
      exact tailfact hy
    | true =>
      cases hnm : name_matches s n with
      | false =>
        simp only [walkRef, hnm, Bool.false_eq_true, if_false, if_true] at hy
        exact tailfact hy
      | true =>
        cases ftype with
        | none =>
          simp only [walkRef, hnm, if_true] at hy
          exact tailfact hy
        | some t0 =>
          by_cases ht : t0 = FType.directory
          · subst ht
            cases listable with
            | true =>
              simp only [walkRef, hnm, if_true, reduceIte] at hy
              rcases List.mem_append.1 hy with hy1 | hy2
              · rcases List.mem_append.1 hy1 with hy0 | hys
                · cases hsd : s.skip_dirs with
                  | true => rw [hsd] at hy0; simp at hy0
                  | false =>
                    rw [hsd] at hy0
                    simp at hy0
                    exact dirfact hy0
                · exact subfact hys
              · exact tailfact hy2
            | false =>
              simp only [walkRef, hnm, if_true, Bool.false_eq_true, if_false,
                reduceIte] at hy
              rcases List.mem_append.1 hy with hy0 | hy2
              · cases hsd : s.skip_dirs with
                | true => rw [hsd] at hy0; simp at hy0
                | false =>
                  rw [hsd] at hy0
                  simp at hy0
                  exact dirfact hy0
              · exact tailfact hy2
          · simp only [walkRef, hnm, ht, if_true, if_false, reduceIte] at hy
            rcases List.mem_append.1 hy with hy0 | hy2
            · cases hsf : s.skip_files with
              | true => rw [hsf] at hy0; simp at hy0
              | false =>
                rw [hsf] at hy0
                simp at hy0
                exact dirfact hy0
            · exact tailfact hy2

/-- Pre-order, half (a): among the yields of one listing, a later yield is
never a proper ancestor of an earlier yield. -/
theorem walkRef_pairwise (s : ScanDir) :
    ∀ (t : Tree) (p : List String), wfTree t = true →
      List.Pairwise (fun y z : List String × String => spfx z.1 y.1 = false)
        (walkRef s p t).1 := by
  intro t
  induction t with
  | nilL => intro p _; simp [walkRef]
  | failC r ih =>
    intro p hw
    simpa [walkRef] using ih p (by simpa [wfTree] using hw)
  | entC n dec ftype listable sub r ihsub ihrest =>
    intro p hw
    simp only [wfTree, Bool.and_eq_true, Bool.not_eq_true'] at hw
    obtain ⟨⟨hmem, hwsub⟩, hwr⟩ := hw
    have hnotin : n ∉ treeNames r := by
      intro hin
      rw [(memStr_iff _ _).2 hin] at hmem
      simp at hmem
    have hrb : ∀ b ∈ (walkRef s p r).1,
        ∃ m, m ∈ treeNames r ∧ n ≠ m ∧ pfx (p ++ [m]) b.1 = true := by
      intro b hb
      obtain ⟨m, hm, h⟩ := walkRef_yield_path s r p b hb
      exact ⟨m, hm, fun he => hnotin (he ▸ hm), h⟩
    have hsuba : ∀ a ∈ (walkRef s (p ++ [n]) sub).1, pfx (p ++ [n]) a.1 = true := by
      intro a ha
      obtain ⟨m, _, h⟩ := walkRef_yield_path s sub (p ++ [n]) a ha
      exact pfx_trans (pfx_append _ _) h
    have crossSubR : ∀ a ∈ (walkRef s (p ++ [n]) sub).1,
        ∀ b ∈ (walkRef s p r).1, spfx b.1 a.1 = false := by
      intro a ha b hb
      obtain ⟨m, _, hne', h⟩ := hrb b hb
      exact cross (hsuba a ha) h hne'
    have crossDR : ∀ b ∈ (walkRef s p r).1, spfx b.1 (p ++ [n]) = false := by
      intro b hb
      obtain ⟨m, _, hne', h⟩ := hrb b hb
      exact cross (pfx_refl _) h hne'
    have crossDS : ∀ b ∈ (walkRef s (p ++ [n]) sub).1,
        spfx b.1 (p ++ [n]) = false :=
      fun b hb => desc_not_anc (hsuba b hb)
    have pwTail : List.Pairwise
        (fun y z : List String × String => spfx z.1 y.1 = false)
        (walkRef s p r).1 := ihrest p hwr
    have pwSubTail : List.Pairwise
        (fun y z : List String × String => spfx z.1 y.1 = false)
        ((walkRef s (p ++ [n]) sub).1 ++ (walkRef s p r).1) :=
      List.pairwise_append.2 ⟨ihsub _ hwsub, pwTail, crossSubR⟩
    cases dec with
    | false =>
      simp only [walkRef, Bool.false_eq_true, if_false]
      exact pwTail
    | true =>
      cases hnm : name_matches s n with
      | false =>
        simp only [walkRef, hnm, Bool.false_eq_true, if_false, if_true]
        exact pwTail
      | true =>
        cases ftype with
        | none =>
          simp only [walkRef, hnm, if_true]
          exact pwTail
        | some t0 =>
          by_cases ht : t0 = FType.directory
          · subst ht
            cases listable with
            | true =>
              cases hsd : s.skip_dirs with
              | true =>
                simp only [walkRef, hnm, hsd, reduceIte, if_true,
                  List.nil_append]
                exact pwSubTail
              | false =>
                simp only [walkRef, hnm, hsd, Bool.false_eq_true, reduceIte,
                  if_true, List.append_assoc, List.singleton_append,
                  List.cons_append, List.nil_append]
                rw [List.pairwise_cons]
                refine ⟨?_, pwSubTail⟩
                intro b hb
                rcases List.mem_append.1 hb with hbs | hbr
                · exact crossDS b hbs
                · exact crossDR b hbr
            | false =>
              cases hsd : s.skip_dirs with
              | true =>
                simp only [walkRef, hnm, hsd, Bool.false_eq_true, reduceIte,
                  if_true, List.nil_append]
                exact pwTail
              | false =>
                simp only [walkRef, hnm, hsd, Bool.false_eq_true, reduceIte,
                  if_true, List.singleton_append]
                rw [List.pairwise_cons]
                exact ⟨crossDR, pwTail⟩
          · cases hsf : s.skip_files with
            | true =>
              simp only [walkRef, hnm, ht, hsf, reduceIte, if_true, if_false,
                List.nil_append]
              exact pwTail
            | false =>
              simp only [walkRef, hnm, ht, hsf, Bool.false_eq_true, reduceIte,
                if_true, if_false, List.singleton_append]
              rw [List.pairwise_cons]
              exact ⟨crossDR, pwTail⟩

/-- Pre-order, half (b): after any yield `y`, the yields strictly inside
`y` form one contiguous block, immediately followed only by yields not
inside `y`. -/
theorem walkRef_contig (s : ScanDir) :
    ∀ (t : Tree) (p : List String), wfTree t = true →
      ∀ l1 y l2, (walkRef s p t).1 = l1 ++ y :: l2 →
        ∃ a b, l2 = a ++ b ∧ (∀ z ∈ a, spfx y.1 z.1 = true) ∧
          (∀ z ∈ b, spfx y.1 z.1 = false) := by
  intro t
  induction t with
  | nilL =>
    intro p _ l1 y l2 h
    simp only [walkRef] at h
    exact absurd h.symm (by simp)
  | failC r ih =>
    intro p hw l1 y l2 h
    simp only [walkRef] at h
    exact ih p (by simpa [wfTree] using hw) l1 y l2 h
  | entC n dec ftype listable sub r ihsub ihrest =>
    intro p hw l1 y l2 h
    simp only [wfTree, Bool.and_eq_true, Bool.not_eq_true'] at hw
    obtain ⟨⟨hmem, hwsub⟩, hwr⟩ := hw
    have hnotin : n ∉ treeNames r := by
      intro hin
      rw [(memStr_iff _ _).2 hin] at hmem
      simp at hmem
    have hrb : ∀ b ∈ (walkRef s p r).1,
        ∃ m, m ∈ treeNames r ∧ n ≠ m ∧ pfx (p ++ [m]) b.1 = true := by
      intro b hb
      obtain ⟨m, hm, h0⟩ := walkRef_yield_path s r p b hb
      exact ⟨m, hm, fun he => hnotin (he ▸ hm), h0⟩
    have hsuba : ∀ a ∈ (walkRef s (p ++ [n]) sub).1, pfx (p ++ [n]) a.1 = true := by
      intro a ha
      obtain ⟨m, _, h0⟩ := walkRef_yield_path s sub (p ++ [n]) a ha
      exact pfx_trans (pfx_append _ _) h0
    -- the case where the distinguished yield lies inside sub ++ rest
    have core : ∀ l1 y l2,
        (walkRef s (p ++ [n]) sub).1 ++ (walkRef s p r).1 = l1 ++ y :: l2 →
        ∃ a b, l2 = a ++ b ∧ (∀ z ∈ a, spfx y.1 z.1 = true) ∧
          (∀ z ∈ b, spfx y.1 z.1 = false) := by
      intro l1 y l2 h0
      rcases split_append _ _ _ _ _ h0 with ⟨l2a, hA, hl2⟩ | ⟨l1b, hB, _⟩
      · obtain ⟨a, b, hab, hfa, hfb⟩ := ihsub (p ++ [n]) hwsub l1 y l2a hA
        have hymem : y ∈ (walkRef s (p ++ [n]) sub).1 := by
          rw [hA]
          exact List.mem_append_right _ (List.mem_cons_self _ _)
        have hy : pfx (p ++ [n]) y.1 = true := hsuba y hymem
        refine ⟨a, b ++ (walkRef s p r).1, by rw [hl2, hab]; simp, hfa, ?_⟩
        intro z hz
        rcases List.mem_append.1 hz with hzb | hzr
        · exact hfb z hzb
        · obtain ⟨m, _, hne', hzp⟩ := hrb z hzr
          exact cross hzp hy (fun he => hne' he.symm)
      · exact ihrest p hwr l1b y l2 hB
    -- the case where the distinguished yield is the directory entry itself
    have dcase : ∀ l2',
        (walkRef s (p ++ [n]) sub).1 ++ (walkRef s p r).1 = l2' →
        ∃ a b, l2' = a ++ b ∧
          (∀ z ∈ a, spfx (p ++ [n]) z.1 = true) ∧
          (∀ z ∈ b, spfx (p ++ [n]) z.1 = false) := by
      intro l2' h0
      refine ⟨(walkRef s (p ++ [n]) sub).1, (walkRef s p r).1, h0.symm, ?_, ?_⟩
      · intro z hz
        obtain ⟨m, _, h1⟩ := walkRef_yield_path s sub (p ++ [n]) z hz
        exact anc_desc h1
      · intro z hz
        obtain ⟨m, _, hne', hzp⟩ := hrb z hz
        exact sib_not_desc hzp hne'
    cases dec with
    | false =>
      simp only [walkRef, Bool.false_eq_true, if_false] at h
      exact ihrest p hwr l1 y l2 h
    | true =>
      cases hnm : name_matches s n with
      | false =>
        simp only [walkRef, hnm, Bool.false_eq_true, if_false, if_true] at h
        exact ihrest p hwr l1 y l2 h
      | true =>
        cases ftype with
        | none =>
          simp only [walkRef, hnm, if_true] at h
          exact ihrest p hwr l1 y l2 h
        | some t0 =>
          by_cases ht : t0 = FType.directory
          · subst ht
            cases listable with
            | true =>
              cases hsd : s.skip_dirs with
              | true =>
                simp only [walkRef, hnm, hsd, reduceIte, if_true,
                  List.nil_append] at h
                exact core l1 y l2 h
              | false =>
                simp only [walkRef, hnm, hsd, Bool.false_eq_true, reduceIte,
                  if_true, List.append_assoc, List.singleton_append,
                  List.cons_append, List.nil_append] at h
                cases l1 with
                | nil =>
                  simp only [List.nil_append] at h
                  injection h with h1 h2
                  subst h1
                  obtain ⟨a, b, hab, hfa, hfb⟩ := dcase l2 h2
                  exact ⟨a, b, hab, hfa, hfb⟩
                | cons x l1' =>
                  simp only [List.cons_append] at h
                  injection h with h1 h2
                  exact core l1' y l2 h2
            | false =>
              cases hsd : s.skip_dirs with
              | true =>
                simp only [walkRef, hnm, hsd, Bool.false_eq_true, reduceIte,
                  if_true, List.nil_append] at h
                exact ihrest p hwr l1 y l2 h
              | false =>
                simp only [walkRef, hnm, hsd, Bool.false_eq_true, reduceIte,
                  if_true, List.singleton_append] at h
                cases l1 with
                | nil =>
                  simp only [List.nil_append] at h
                  injection h with h1 h2
                  subst h1
                  refine ⟨[], l2, by simp, by simp, ?_⟩
                  intro z hz
                  rw [← h2] at hz
                  obtain ⟨m, _, hne', hzp⟩ := hrb z hz
                  exact sib_not_desc hzp hne'
                | cons x l1' =>
                  simp only [List.cons_append] at h
                  injection h with h1 h2
                  exact ihrest p hwr l1' y l2 h2
          · cases hsf : s.skip_files with
            | true =>
              simp only [walkRef, hnm, ht, hsf, reduceIte, if_true, if_false,
                List.nil_append] at h
              exact ihrest p hwr l1 y l2 h
            | false =>
              simp only [walkRef, hnm, ht, hsf, Bool.false_eq_true, reduceIte,
                if_true, if_false, List.singleton_append] at h
              cases l1 with
              | nil =>
                simp only [List.nil_append] at h
                injection h with h1 h2
                subst h1
                refine ⟨[], l2, by simp, by simp, ?_⟩
                intro z hz
                rw [← h2] at hz
                obtain ⟨m, _, hne', hzp⟩ := hrb z hz
                exact sib_not_desc hzp hne'
              | cons x l1' =>
                simp only [List.cons_append] at h
                injection h with h1 h2
                exact ihrest p hwr l1' y l2 h2

theorem spfx_irrefl (a : List String) : spfx a a = false := by
  simp [spfx]

/-- Every entry yielded by the walker passed `name_matches`. -/
theorem walkRef_yield_name (s : ScanDir) :
    ∀ (t : Tree) (p : List String) (y : List String × String),
      y ∈ (walkRef s p t).1 → name_matches s y.2 = true := by
  intro t
  induction t with
  | nilL => intro p y hy; simp [walkRef] at hy
  | failC r ih =>
    intro p y hy
    simp only [walkRef] at hy
    exact ih p y hy
  | entC n dec ftype listable sub r ihsub ihrest =>
    intro p y hy
    cases dec with
    | false =>
      simp only [walkRef, Bool.false_eq_true, if_false] at hy
      exact ihrest p y hy
    | true =>
      cases hnm : name_matches s n with
      | false =>
        simp only [walkRef, hnm, Bool.false_eq_true, if_false, if_true] at hy
        exact ihrest p y hy
      | true =>
        cases ftype with
        | none =>
          simp only [walkRef, hnm, if_true] at hy
          exact ihrest p y hy
        | some t0 =>
          by_cases ht : t0 = FType.directory
          · subst ht
            cases listable with
            | true =>
              simp only [walkRef, hnm, if_true, reduceIte] at hy
              rcases List.mem_append.1 hy with hy1 | hy2
              · rcases List.mem_append.1 hy1 with hy0 | hys
                · cases hsd : s.skip_dirs with
                  | true => rw [hsd] at hy0; simp at hy0
                  | false =>
                    rw [hsd] at hy0
                    simp at hy0
                    rw [hy0]
                    exact hnm
                · exact ihsub (p ++ [n]) y hys
              · exact ihrest p y hy2
            | false =>
              simp only [walkRef, hnm, if_true, Bool.false_eq_true, if_false,
                reduceIte] at hy
              rcases List.mem_append.1 hy with hy0 | hy2
              · cases hsd : s.skip_dirs with
                | true => rw [hsd] at hy0; simp at hy0
                | false =>
                  rw [hsd] at hy0
                  simp at hy0
                  rw [hy0]
                  exact hnm
              · exact ihrest p y hy2
          · simp only [walkRef, hnm, ht, if_true, if_false, reduceIte] at hy
            rcases List.mem_append.1 hy with hy0 | hy2
            · cases hsf : s.skip_files with
              | true => rw [hsf] at hy0; simp at hy0
              | false =>
                rw [hsf] at hy0
                simp at hy0
                rw [hy0]
                exact hnm
            · exact ihrest p y hy2

/-- An entry accepted by the single-level filter passed `name_matches`. -/
theorem imatches_name (s : ScanDir) (ft : Option FType) (n : String)
    (h : imatches s ft n = some true) : name_matches s n = true := by
  by_cases h1 : (s.skip_hidden && strStartsWith n ".") = true
  · simp [imatches, h1] at h
  · by_cases h2 : (s.skip_backup && strEndsWith n "~") = true
    · simp [imatches, h1, h2] at h
    · by_cases h3 : (s.skip_backup && strEndsWith n ".bak") = true
      · simp [imatches, h1, h2, h3] at h
      · by_cases h4 : (s.skip_backup &&
            (strStartsWith n "#" && strEndsWith n "#")) = true
        · simp [imatches, h1, h2, h3, h4] at h
        · simp [name_matches, h1, h2, h3, h4]

/-- Every entry yielded by the single-level iterator was accepted by the
single-level filter for its own reported type. -/
theorem iterRun_yield (s : ScanDir) (p : List String) :
    ∀ (t : Tree) (err : Option Error) (y : List String × String),
      y ∈ (iterRun s p t err).1 →
      ∃ ft, imatches s ft y.2 = some true := by
  intro t
  induction t with
  | nilL => intro err y hy; simp [iterRun] at hy
  | failC r ih =>
    intro err y hy
    simp only [iterRun] at hy
    exact ih _ y hy
  | entC n dec ftype listable sub r ihsub ihrest =>
    intro err y hy
    cases dec with
    | false =>
      simp only [iterRun, Bool.false_eq_true, if_false] at hy
      exact ihrest _ y hy
    | true =>
      cases him : imatches s ftype n with
      | none =>
        simp only [iterRun, if_true, him] at hy
        exact ihrest _ y hy
      | some b =>
        cases b with
        | false =>
          simp only [iterRun, if_true, him] at hy
          exact ihrest _ y hy
        | true =>
          simp only [iterRun, if_true, him, List.mem_cons] at hy
          rcases hy with hy0 | hy1
          · exact ⟨ftype, by rw [hy0]; exact him⟩
          · exact ihrest _ y hy1

/-- With both `skip_dirs` and `skip_files` set the walker yields nothing. -/
theorem walkRef_both_skips (s : ScanDir) (hd : s.skip_dirs = true)
    (hf : s.skip_files = true) :
    ∀ (t : Tree) (p : List String), (walkRef s p t).1 = [] := by
  intro t
  induction t with
  | nilL => intro p; simp [walkRef]
  | failC r ih => intro p; simp only [walkRef]; exact ih p
  | entC n dec ftype listable sub r ihsub ihrest =>
    intro p
    cases dec with
    | false => simp only [walkRef, Bool.false_eq_true, if_false]; exact ihrest p
    | true =>
      cases hnm : name_matches s n with
      | false =>
        simp only [walkRef, hnm, Bool.false_eq_true, if_false, if_true]
        exact ihrest p
      | true =>
        cases ftype with
        | none => simp only [walkRef, hnm, if_true]; exact ihrest p
        | some t0 =>
          by_cases ht : t0 = FType.directory
          · subst ht
            cases listable with
            | true =>
              simp only [walkRef, hnm, hd, if_true, reduceIte]
              simp [ihsub (p ++ [n]), ihrest p]
            | false =>
              simp only [walkRef, hnm, hd, if_true, reduceIte]
              simp [ihrest p]
          · simp only [walkRef, hnm, ht, hf, if_true, if_false, reduceIte]
            simp [ihrest p]

/-- `topTypesOk t`: every entry in the top listing reports a type that is
either unavailable, a regular file, or a directory (no symlinks, no special
files). -/
def topTypesOk : Tree → Bool
  | .nilL => true
  | .failC r => topTypesOk r
  | .entC _ _ ftype _ _ r =>
    (decide (ftype ≠ some FType.symlink) &&
     decide (ftype ≠ some FType.other)) && topTypesOk r

/-- With both skips set, the single-level filter rejects every file- or
directory-typed entry (and propagates type-query failures). -/
theorem imatches_skips (s : ScanDir) (ft : Option FType) (n : String)
    (hd : s.skip_dirs = true) (hf : s.skip_files = true)
    (h1 : ft ≠ some FType.symlink) (h2 : ft ≠ some FType.other) :
    imatches s ft n ≠ some true := by
  intro h
  rcases ft with _ | t1
  · unfold imatches at h
    repeat' split at h
    all_goals simp_all
  · cases t1 with
    | symlink => exact h1 rfl
    | other => exact h2 rfl
    | file =>
      unfold imatches at h
      repeat' split at h
      all_goals simp_all
    | directory =>
      unfold imatches at h
      repeat' split at h
      all_goals simp_all

/-- With both skips set, the single-level iterator yields nothing provided
every entry's reported type is a regular file or a directory. -/
theorem iterRun_both_skips (s : ScanDir) (p : List String)
    (hd : s.skip_dirs = true) (hf : s.skip_files = true) :
    ∀ (t : Tree) (err : Option Error), topTypesOk t = true →
      (iterRun s p t err).1 = [] := by
  intro t
  induction t with
  | nilL => intro err _; simp [iterRun]
  | failC r ih =>
    intro err hok
    simp only [iterRun]
    exact ih _ (by simpa [topTypesOk] using hok)
  | entC n dec ftype listable sub r ihsub ihrest =>
    intro err hok
    simp only [topTypesOk, Bool.and_eq_true, decide_eq_true_eq] at hok
    obtain ⟨⟨hs1, hs2⟩, hokr⟩ := hok
    cases dec with
    | false =>
      simp only [iterRun, Bool.false_eq_true, if_false]
      exact ihrest _ hokr
    | true =>
      cases him : imatches s ftype n with
      | none =>
        simp only [iterRun, if_true, him]
        exact ihrest _ hokr
      | some b =>
        cases b with
        | false =>
          simp only [iterRun, if_true, him]
          exact ihrest _ hokr
        | true => exact absurd him (imatches_skips s ftype n hd hf hs1 hs2)

/-- The walker processes a concatenated listing blockwise. -/
theorem walkRef_app (s : ScanDir) (p : List String) :
    ∀ (a b : Tree),
      walkRef s p (a.app b) =
        ((walkRef s p a).1 ++ (walkRef s p b).1,
         (walkRef s p a).2 ++ (walkRef s p b).2) := by
  intro a
  induction a with
  | nilL => intro b; simp [Tree.app, walkRef]
  | failC r ih => intro b; simp [Tree.app, walkRef, ih]
  | entC n dec ftype listable sub r ihsub ihrest =>
    intro b
    cases dec with
    | false => simp [Tree.app, walkRef, ihrest]
    | true =>
      cases hnm : name_matches s n with
      | false => simp [Tree.app, walkRef, hnm, ihrest]
      | true =>
        cases ftype with
        | none => simp [Tree.app, walkRef, hnm, ihrest]
        | some t0 =>
          by_cases ht : t0 = FType.directory
          · subst ht
            cases listable with
            | true =>
              simp [Tree.app, walkRef, hnm, ihrest, List.append_assoc]
            | false =>
              simp [Tree.app, walkRef, hnm, ihrest, List.append_assoc]
          · simp [Tree.app, walkRef, hnm, ht, ihrest, List.append_assoc]

theorem treeNames_app : ∀ (a b : Tree),
    treeNames (a.app b) = treeNames a ++ treeNames b := by
  intro a
  induction a with
  | nilL => intro b; simp [Tree.app, treeNames]
  | failC r ih => intro b; simp [Tree.app, treeNames, ih]
  | entC n dec ftype listable sub r ihsub ihrest =>
    intro b
    simp [Tree.app, treeNames, ihrest]

/-- In a well-formed tree the names of each listing are pairwise distinct. -/
theorem wf_nodup : ∀ (t : Tree), wfTree t = true → (treeNames t).Nodup := by
  intro t
  induction t with
  | nilL => intro _; simp [treeNames]
  | failC r ih =>
    intro h
    simpa [treeNames] using ih (by simpa [wfTree] using h)
  | entC n dec ftype listable sub r ihsub ihrest =>
    intro h
    simp only [wfTree, Bool.and_eq_true, Bool.not_eq_true'] at h
    obtain ⟨⟨hmem, _⟩, hwr⟩ := h
    have hnotin : n ∉ treeNames r := by
      intro hin
      rw [(memStr_iff _ _).2 hin] at hmem
      simp at hmem
    simpa [treeNames] using List.nodup_cons.2 ⟨hnotin, ihrest hwr⟩

/-- In a well-formed listing `pre ++ [entry n] ++ post` the name `n` occurs
in neither `pre` nor `post`. -/
theorem wf_mid {pre post : Tree} {n : String} {dec : Bool}
    {ft : Option FType} {l : Bool} {sub : Tree}
    (h : wfTree (pre.app (Tree.entC n dec ft l sub post)) = true) :
    n ∉ treeNames pre ∧ n ∉ treeNames post := by
  have hn := wf_nodup _ h
  rw [treeNames_app] at hn
  simp only [treeNames] at hn
  rw [List.nodup_append] at hn
  obtain ⟨_, hn2, hdisj⟩ := hn
  refine ⟨fun hin => hdisj hin (List.mem_cons_self _ _), ?_⟩
  exact (List.nodup_cons.1 hn2).1

/- ------------------------------------------------------------------ -/
/- The pre-order induced by each directory's listing order.            -/
/- ------------------------------------------------------------------ -/

/-- `nameLt a b l`: walking the name list `l` in listing order, `a` is
found strictly before any occurrence of `b`. -/
def nameLt (a b : String) : List String → Bool
  | [] => false
  | x :: xs => if x == a then memStr b xs else if x == b then false else nameLt a b xs

/-- The sub-listing recorded for the child named `x` of a listing. -/
def subOf : Tree → String → Option Tree
  | .nilL, _ => none
  | .failC r, x => subOf r x
  | .entC n _ _ _ sub r, x => if n == x then some sub else subOf r x

/-- `preOrd t p q`: the relative path `p` comes strictly before the
relative path `q` in the depth-first pre-order of the tree `t` that is
induced by each directory's listing order: an ancestor comes before
everything inside it, and paths that diverge at some directory are ordered
by the listing positions of the two children they diverge into. -/
def preOrd : Tree → List String → List String → Bool
  | _, [], [] => false
  | _, [], _ :: _ => true
  | _, _ :: _, [] => false
  | t, a :: p, b :: q =>
    if a = b then
      match subOf t a with
      | some sub => preOrd sub p q
      | none => false
    else nameLt a b (treeNames t)

theorem preOrd_failC (r : Tree) : ∀ p q, preOrd (.failC r) p q = preOrd r p q := by
  intro p q
  cases p with
  | nil => cases q <;> rfl
  | cons a p' =>
    cases q with
    | nil => rfl
    | cons b q' => simp [preOrd, subOf, treeNames]

/-- Divergence below a first entry named `n`: paths whose heads avoid `n`
are ordered as in the remaining listing. -/
theorem preOrd_entC_ne {n : String} {d : Bool} {ft : Option FType} {l : Bool}
    {sub r : Tree} {m1 m2 : String} (t1 t2 : List String)
    (h1 : m1 ≠ n) (h2 : m2 ≠ n) :
    preOrd (.entC n d ft l sub r) (m1 :: t1) (m2 :: t2) =
      preOrd r (m1 :: t1) (m2 :: t2) := by
  have hn1 : ¬ n = m1 := fun hh => h1 hh.symm
  have hn2 : ¬ n = m2 := fun hh => h2 hh.symm
  by_cases he : m1 = m2
  · subst he
    simp [preOrd, subOf, hn1]
  · simp [preOrd, treeNames, nameLt, he, hn1, hn2]

/-- Both paths enter the first entry, named `n`: the order is decided
inside its sub-listing. -/
theorem preOrd_entC_same {n : String} {d : Bool} {ft : Option FType}
    {l : Bool} {sub r : Tree} (t1 t2 : List String) :
    preOrd (.entC n d ft l sub r) (n :: t1) (n :: t2) = preOrd sub t1 t2 := by
  simp [preOrd, subOf]

/-- The path entering the first entry, named `n`, comes before any path
entering a later-listed sibling `m`. -/
theorem preOrd_entC_head {n m : String} {d : Bool} {ft : Option FType}
    {l : Bool} {sub r : Tree} (t1 t2 : List String)
    (hne : m ≠ n) (hm : m ∈ treeNames r) :
    preOrd (.entC n d ft l sub r) (n :: t1) (m :: t2) = true := by
  have hn : ¬ n = m := fun hh => hne hh.symm
  simp [preOrd, treeNames, nameLt, hn, (memStr_iff _ _).2 hm]

/-- An ancestor path comes before every path strictly inside it. -/
theorem preOrd_nil_cons (t : Tree) (x : String) (xs : List String) :
    preOrd t [] (x :: xs) = true := rfl

/-- Refined shape of a yield: processing the listing at `p` only yields
entries whose path extends `p` by a child name of the listing and then a
(possibly empty) remainder. -/
theorem walkRef_yield_split (s : ScanDir) (t : Tree) (p : List String)
    (y : List String × String) (hy : y ∈ (walkRef s p t).1) :
    ∃ n rest, n ∈ treeNames t ∧ y.1 = p ++ n :: rest := by
  obtain ⟨n, hn, hp⟩ := walkRef_yield_path s t p y hy
  obtain ⟨rest, hr⟩ := (pfx_iff _ _).1 hp
  exact ⟨n, rest, hn, by rw [hr]; simp⟩

/-- Listing-order pre-order sortedness: the yields of processing the
listing at `p`, with the leading `p` stripped from their paths, are
pairwise strictly increasing in the pre-order `preOrd t` induced by each
directory's listing order. -/
theorem walkRef_preOrd (s : ScanDir) :
    ∀ (t : Tree) (p : List String), wfTree t = true →
      List.Pairwise
        (fun y z : List String × String =>
          preOrd t (y.1.drop p.length) (z.1.drop p.length) = true)
        (walkRef s p t).1 := by
  intro t
  induction t with
  | nilL => intro p _; simp [walkRef]
  | failC r ih =>
    intro p hw
    simp only [walkRef]
    exact (ih p (by simpa [wfTree] using hw)).imp
      (fun hab => by rwa [preOrd_failC])
  | entC n dec ftype listable sub r ihsub ihrest =>
    intro p hw
    simp only [wfTree, Bool.and_eq_true, Bool.not_eq_true'] at hw
    obtain ⟨⟨hmem, hwsub⟩, hwr⟩ := hw
    have hnotin : n ∉ treeNames r := by
      intro hin
      rw [(memStr_iff _ _).2 hin] at hmem
      simp at hmem
    have hsub_shape : ∀ y ∈ (walkRef s (p ++ [n]) sub).1,
        ∃ m rest, y.1 = p ++ n :: m :: rest := by
      intro y hy
      obtain ⟨m, rest, _, he⟩ := walkRef_yield_split s sub (p ++ [n]) y hy
      exact ⟨m, rest, by rw [he]; simp⟩
    have hr_shape : ∀ y ∈ (walkRef s p r).1,
        ∃ m rest, m ∈ treeNames r ∧ m ≠ n ∧ y.1 = p ++ m :: rest := by
      intro y hy
      obtain ⟨m, rest, hm, he⟩ := walkRef_yield_split s r p y hy
      exact ⟨m, rest, hm, fun heq => hnotin (heq ▸ hm), he⟩
    have condSub : ∀ y ∈ (walkRef s (p ++ [n]) sub).1,
        ∀ z ∈ (walkRef s (p ++ [n]) sub).1,
        preOrd sub (y.1.drop (p ++ [n]).length) (z.1.drop (p ++ [n]).length)
            = true →
        preOrd (Tree.entC n dec ftype listable sub r)
          (y.1.drop p.length) (z.1.drop p.length) = true := by
      intro y hy z hz hyz
      obtain ⟨m1, r1, he1⟩ := hsub_shape y hy
      obtain ⟨m2, r2, he2⟩ := hsub_shape z hz
      have d1 : y.1.drop p.length = n :: m1 :: r1 := by
        rw [he1]; exact List.drop_left _ _
      have d2 : z.1.drop p.length = n :: m2 :: r2 := by
        rw [he2]; exact List.drop_left _ _
      have e1 : y.1.drop (p ++ [n]).length = m1 :: r1 := by
        rw [he1, show p ++ n :: m1 :: r1 = (p ++ [n]) ++ (m1 :: r1) by simp]
        exact List.drop_left _ _
      have e2 : z.1.drop (p ++ [n]).length = m2 :: r2 := by
        rw [he2, show p ++ n :: m2 :: r2 = (p ++ [n]) ++ (m2 :: r2) by simp]
        exact List.drop_left _ _
      rw [d1, d2, preOrd_entC_same]
      rw [e1, e2] at hyz
      exact hyz
    have condRest : ∀ y ∈ (walkRef s p r).1, ∀ z ∈ (walkRef s p r).1,
        preOrd r (y.1.drop p.length) (z.1.drop p.length) = true →
        preOrd (Tree.entC n dec ftype listable sub r)
          (y.1.drop p.length) (z.1.drop p.length) = true := by
      intro y hy z hz hyz
      obtain ⟨m1, r1, _, hne1, he1⟩ := hr_shape y hy
      obtain ⟨m2, r2, _, hne2, he2⟩ := hr_shape z hz
      have d1 : y.1.drop p.length = m1 :: r1 := by
        rw [he1]; exact List.drop_left _ _
      have d2 : z.1.drop p.length = m2 :: r2 := by
        rw [he2]; exact List.drop_left _ _
      rw [d1, d2, preOrd_entC_ne r1 r2 hne1 hne2]
      rw [d1, d2] at hyz
      exact hyz
    have condCross : ∀ y ∈ (walkRef s (p ++ [n]) sub).1,
        ∀ z ∈ (walkRef s p r).1,
        preOrd (Tree.entC n dec ftype listable sub r)
          (y.1.drop p.length) (z.1.drop p.length) = true := by
      intro y hy z hz
      obtain ⟨m1, r1, he1⟩ := hsub_shape y hy
      obtain ⟨m2, r2, hm2, hne2, he2⟩ := hr_shape z hz
      have d1 : y.1.drop p.length = n :: m1 :: r1 := by
        rw [he1]; exact List.drop_left _ _
      have d2 : z.1.drop p.length = m2 :: r2 := by
        rw [he2]; exact List.drop_left _ _
      rw [d1, d2]
      exact preOrd_entC_head _ _ hne2 hm2
    have condDSub : ∀ z ∈ (walkRef s (p ++ [n]) sub).1,
        preOrd (Tree.entC n dec ftype listable sub r)
          ((p ++ [n]).drop p.length) (z.1.drop p.length) = true := by
      intro z hz
      obtain ⟨m2, r2, he2⟩ := hsub_shape z hz
      have d1 : (p ++ [n]).drop p.length = [n] := List.drop_left _ _
      have d2 : z.1.drop p.length = n :: m2 :: r2 := by
        rw [he2]; exact List.drop_left _ _
      rw [d1, d2, show ([n] : List String) = n :: [] from rfl,
        preOrd_entC_same]
      exact preOrd_nil_cons _ _ _
    have condDRest : ∀ z ∈ (walkRef s p r).1,
        preOrd (Tree.entC n dec ftype listable sub r)
          ((p ++ [n]).drop p.length) (z.1.drop p.length) = true := by
      intro z hz
      obtain ⟨m2, r2, hm2, hne2, he2⟩ := hr_shape z hz
      have d1 : (p ++ [n]).drop p.length = [n] := List.drop_left _ _
      have d2 : z.1.drop p.length = m2 :: r2 := by
        rw [he2]; exact List.drop_left _ _
      rw [d1, d2, show ([n] : List String) = n :: [] from rfl]
      exact preOrd_entC_head _ _ hne2 hm2
    have pwSub : List.Pairwise
        (fun y z : List String × String =>
          preOrd (Tree.entC n dec ftype listable sub r)
            (y.1.drop p.length) (z.1.drop p.length) = true)
        (walkRef s (p ++ [n]) sub).1 :=
      List.Pairwise.imp_of_mem (fun ha hb hr => condSub _ ha _ hb hr)
        (ihsub (p ++ [n]) hwsub)
    have pwRest : List.Pairwise
        (fun y z : List String × String =>
          preOrd (Tree.entC n dec ftype listable sub r)
            (y.1.drop p.length) (z.1.drop p.length) = true)
        (walkRef s p r).1 :=
      List.Pairwise.imp_of_mem (fun ha hb hr => condRest _ ha _ hb hr)
        (ihrest p hwr)
    have pwSubRest : List.Pairwise
        (fun y z : List String × String =>
          preOrd (Tree.entC n dec ftype listable sub r)
            (y.1.drop p.length) (z.1.drop p.length) = true)
        ((walkRef s (p ++ [n]) sub).1 ++ (walkRef s p r).1) :=
      List.pairwise_append.2 ⟨pwSub, pwRest, fun a ha b hb => condCross a ha b hb⟩
    cases dec with
    | false =>
      simp only [walkRef, Bool.false_eq_true, if_false]
      exact pwRest
    | true =>
      cases hnm : name_matches s n with
      | false =>
        simp only [walkRef, hnm, Bool.false_eq_true, if_false, if_true]
        exact pwRest
      | true =>
        cases ftype with
        | none =>
          simp only [walkRef, hnm, if_true]
          exact pwRest
        | some t0 =>
          by_cases ht : t0 = FType.directory
          · subst ht
            cases listable with
            | true =>
              cases hsd : s.skip_dirs with
              | true =>
                simp only [walkRef, hnm, hsd, reduceIte, if_true,
                  List.nil_append]
                exact pwSubRest
              | false =>
                simp only [walkRef, hnm, hsd, Bool.false_eq_true, reduceIte,
                  if_true, List.append_assoc, List.singleton_append,
                  List.cons_append, List.nil_append]
                rw [List.pairwise_cons]
                refine ⟨?_, pwSubRest⟩
                intro b hb
                rcases List.mem_append.1 hb with hbs | hbr
                · exact condDSub b hbs
                · exact condDRest b hbr
            | false =>
              cases hsd : s.skip_dirs with
              | true =>
                simp only [walkRef, hnm, hsd, Bool.false_eq_true, reduceIte,
                  if_true, List.nil_append]
                exact pwRest
              | false =>
                simp only [walkRef, hnm, hsd, Bool.false_eq_true, reduceIte,
                  if_true, List.singleton_append]
                rw [List.pairwise_cons]
                exact ⟨condDRest, pwRest⟩
          · cases hsf : s.skip_files with
            | true =>
              simp only [walkRef, hnm, ht, hsf, reduceIte, if_true, if_false,
                List.nil_append]
              exact pwRest
            | false =>
              simp only [walkRef, hnm, ht, hsf, Bool.false_eq_true, reduceIte,
                if_true, if_false, List.singleton_append]
              rw [List.pairwise_cons]
              exact ⟨condDRest, pwRest⟩

/-- If a name passes `name_matches` then each of the four rejection
conditions is false. -/
theorem name_matches_conds {s : ScanDir} {n : String}
    (h : name_matches s n = true) :
    (s.skip_hidden && strStartsWith n ".") = false ∧
    (s.skip_backup && strEndsWith n "~") = false ∧
    (s.skip_backup && strEndsWith n ".bak") = false ∧
    (s.skip_backup && (strStartsWith n "#" && strEndsWith n "#")) = false := by
  by_cases h1 : (s.skip_hidden && strStartsWith n ".") = true
  · simp [name_matches, h1] at h
  · by_cases h2 : (s.skip_backup && strEndsWith n "~") = true
    · simp [name_matches, h1, h2] at h
    · by_cases h3 : (s.skip_backup && strEndsWith n ".bak") = true
      · simp [name_matches, h1, h2, h3] at h
      · by_cases h4 : (s.skip_backup &&
            (strStartsWith n "#" && strEndsWith n "#")) = true
        · simp [name_matches, h1, h2, h3, h4] at h
        · simp only [Bool.not_eq_true] at h1 h2 h3 h4
          exact ⟨h1, h2, h3, h4⟩

/- ------------------------------------------------------------------ -/
/- The claims.                                                         -/
/- ------------------------------------------------------------------ -/

/-- Example trees and configurations used by the concrete instances. -/
def wTree1 : Tree :=
  .entC "d" true (some FType.directory) true
    (.entC "x" true (some FType.file) false .nilL
      (.entC "e" true (some FType.directory) true
        (.entC "y" true (some FType.file) false .nilL .nilL) .nilL))
    (.entC "z" true (some FType.file) false .nilL .nilL)

/-- Root listing whose only entry is a symlink to a directory whose listing
would contain one file. -/
def symTree : Tree :=
  .entC "link" true (some FType.symlink) true
    (.entC "f" true (some FType.file) false .nilL .nilL) .nilL

/-- Configuration with only `skip_symlinks` set. -/
def sSymlinks : ScanDir := ⟨false, false, false, false, true⟩

/-- Configuration with `skip_dirs` and `skip_files` set. -/
def sBoth : ScanDir := ⟨false, true, true, false, false⟩

/-- Root listing: an entry with a non-decodable name, then a mid-listing
pull failure. -/
def errTree : Tree :=
  .entC "bad" false none false .nilL (.failC .nilL)

/-- Root listing whose only entry is a symlink. -/
def symTop : Tree :=
  .entC "s" true (some FType.symlink) false .nilL .nilL

/-- C2: the claim says a recursive walk with `skip_symlinks = true` excludes
every symlink entirely (never yielded, never descended, no error).  The code
does not consult `skip_symlinks` in the walker at all: with
`skip_symlinks = true` the symlink `link` is still yielded (as a
non-directory), though indeed not descended and with no error. -/
theorem claim_C2_symlink_still_yielded :
    sSymlinks.skip_symlinks = true ∧
    walk sSymlinks (some symTree) [] = ([(["link"], "link")], []) := by
  refine ⟨rfl, ?_⟩
  rw [walk_eq]
  decide

/-- C3: the claim (and the `read` doc comment in lib.rs) says a later
listing (`Io`) failure overwrites an earlier decode failure.  The code keeps
the first error unconditionally: here a `Decode` failure happens first, a
listing failure happens later, and the retained error is still the
`Decode` one. -/
theorem claim_C3_first_error_kept :
    read ScanDir.all (some errTree) [] = ([], some (Error.decode ["bad"])) := by
  decide

/-- C5: every entry yielded by the recursive walker or by the single-level
iterator has a name that does not start with `.` when `skip_hidden` is set,
and matches none of `*~`, `*.bak`, `#*#` when `skip_backup` is set. -/
theorem claim_C5_yield_names_filtered (s : ScanDir) (t : Tree)
    (rp : List String) (y : List String × String)
    (hy : y ∈ (walk s (some t) rp).1 ∨ y ∈ (read s (some t) rp).1) :
    (s.skip_hidden = true → strStartsWith y.2 "." = false) ∧
    (s.skip_backup = true →
      strEndsWith y.2 "~" = false ∧ strEndsWith y.2 ".bak" = false ∧
      (strStartsWith y.2 "#" = false ∨ strEndsWith y.2 "#" = false)) := by
  have hnm : name_matches s y.2 = true := by
    rcases hy with h | h
    · rw [walk_eq] at h
      exact walkRef_yield_name s t rp y h
    · simp only [read] at h
      obtain ⟨ft, hf⟩ := iterRun_yield s rp t none y h
      exact imatches_name s ft y.2 hf
  obtain ⟨hc1, hc2, hc3, hc4⟩ := name_matches_conds hnm
  refine ⟨?_, ?_⟩
  · intro hh
    rw [hh] at hc1
    simpa using hc1
  · intro hh
    rw [hh] at hc2 hc3 hc4
    simp only [Bool.true_and] at hc2 hc3 hc4
    refine ⟨hc2, hc3, ?_⟩
    cases hsw : strStartsWith y.2 "#" with
    | false => exact Or.inl rfl
    | true =>
      rw [hsw, Bool.true_and] at hc4
      exact Or.inr hc4

/-- Witness for C5: the file `z` yielded by the single-level iterator under
the files-only configuration has a name passing all lexical rules. -/
theorem claim_C5_yield_names_filtered_witness :
    ((["z"], "z") ∈ (walk ScanDir.files (some wTree1) []).1 ∨
      (["z"], "z") ∈ (read ScanDir.files (some wTree1) []).1) ∧
    ((ScanDir.files.skip_hidden = true →
        strStartsWith (["z"], "z").2 "." = false) ∧
      (ScanDir.files.skip_backup = true →
        strEndsWith (["z"], "z").2 "~" = false ∧
        strEndsWith (["z"], "z").2 ".bak" = false ∧
        (strStartsWith (["z"], "z").2 "#" = false ∨
          strEndsWith (["z"], "z").2 "#" = false))) :=
  ⟨Or.inr (by decide),
    claim_C5_yield_names_filtered ScanDir.files wTree1 [] (["z"], "z")
      (Or.inr (by decide))⟩

/-- C6 counterexample: the claim says every scan with both `skip_dirs` and
`skip_files` set yields nothing, for the recursive walker and the
single-level iterator alike.  The single-level iterator's filter never
resolves symlinks and only rejects `is_dir` and `is_file` types, so a
symlink entry is yielded even though both skips are set. -/
theorem claim_C6_counterexample :
    sBoth.skip_dirs = true ∧ sBoth.skip_files = true ∧
    (read sBoth (some symTop) []).1 = [(["s"], "s")] := by
  decide

/-- C6 (amended): with `skip_dirs` and `skip_files` both set the recursive
walker yields nothing, and the single-level iterator yields nothing
provided every entry's reported type is a regular file or directory
(symlinks and special-typed entries are still yielded by the single-level
iterator); the error collection may still be populated. -/
theorem claim_C6_amended (s : ScanDir) (t : Tree) (rp : List String)
    (hd : s.skip_dirs = true) (hf : s.skip_files = true) :
    (walk s (some t) rp).1 = [] ∧
    (topTypesOk t = true → (read s (some t) rp).1 = []) := by
  refine ⟨?_, ?_⟩
  · rw [walk_eq]
    exact walkRef_both_skips s hd hf t rp
  · intro hok
    simp only [read]
    exact iterRun_both_skips s rp hd hf t none hok

/-- Witness for C6: the amended statement instantiated at a concrete
configuration and tree (a file and a directory under a failing listing
pull: nothing is yielded, while the error collection is not empty). -/
theorem claim_C6_amended_witness :
    sBoth.skip_dirs = true ∧ sBoth.skip_files = true ∧
    ((walk sBoth (some wTree1) []).1 = [] ∧
      (topTypesOk wTree1 = true → (read sBoth (some wTree1) []).1 = [])) :=
  ⟨rfl, rfl, claim_C6_amended sBoth wTree1 [] rfl rfl⟩

/-- C7: when the root listing cannot be opened, walker construction does
not fail the caller: the walker starts with no current frame, the walk
yields nothing, and the error collection is exactly one `Io` error tagged
with the root path. -/
theorem claim_C7_root_unopenable (s : ScanDir) (rp : List String) :
    (Walker.new none rp).cur = none ∧
    walk s none rp = ([], [Error.io rp]) := by
  refine ⟨rfl, ?_⟩
  rw [walk, Walker.new, drain]
  simp [step]

/-- C8 counterexample: the claim says the filter rejects, under
`skip_files`, every entry whose effective type is non-directory.  In the
single-level filter a symlink is never resolved, is neither `is_dir` nor
`is_file`, and is accepted although its effective type is not a
directory. -/
theorem claim_C8_counterexample :
    ScanDir.dirs.skip_files = true ∧
    name_matches ScanDir.dirs "a" = true ∧
    imatches ScanDir.dirs (some FType.symlink) "a" = some true := by
  decide

/-- C8 (amended): for a name accepted at the name level and `skip_files`
set, an entry whose effective type is a regular `file` is rejected, by the
single-level filter and by `filter::matches` (directly, and for a symlink
resolving to a file); effective types that are neither files nor
directories are accepted instead. -/
theorem claim_C8_amended (s : ScanDir) (n : String) (r : Option FType)
    (hn : name_matches s n = true) (hf : s.skip_files = true) :
    imatches s (some FType.file) n = some false ∧
    fmatches s (some FType.file) r n = some false ∧
    (s.skip_symlinks = false →
      fmatches s (some FType.symlink) (some FType.file) n = some false) := by
  obtain ⟨hc1, hc2, hc3, hc4⟩ := name_matches_conds hn
  refine ⟨?_, ?_, ?_⟩
  · simp [imatches, hc1, hc2, hc3, hc4, hf]
  · simp [fmatches, hn, hf]
  · intro hss
    simp [fmatches, hn, hf, hss]

/-- Witness for C8: the amended statement instantiated at the
directories-only configuration. -/
theorem claim_C8_amended_witness :
    name_matches ScanDir.dirs "a" = true ∧ ScanDir.dirs.skip_files = true ∧
    (imatches ScanDir.dirs (some FType.file) "a" = some false ∧
      fmatches ScanDir.dirs (some FType.file) none "a" = some false ∧
      (ScanDir.dirs.skip_symlinks = false →
        fmatches ScanDir.dirs (some FType.symlink) (some FType.file) "a" =
          some false)) :=
  ⟨by decide, rfl, claim_C8_amended ScanDir.dirs "a" none (by decide) rfl⟩

/-- C9: the `skip_backup` setter writes its flag into the `skip_files`
field, leaves the `skip_backup` field unchanged, and leaves every other
field unchanged as well. -/
theorem claim_C9_skip_backup_setter (s : ScanDir) (flag : Bool) :
    (s.skip_backup_set flag).skip_files = flag ∧
    (s.skip_backup_set flag).skip_backup = s.skip_backup ∧
    (s.skip_backup_set flag).skip_hidden = s.skip_hidden ∧
    (s.skip_backup_set flag).skip_dirs = s.skip_dirs ∧
    (s.skip_backup_set flag).skip_symlinks = s.skip_symlinks :=
  ⟨rfl, rfl, rfl, rfl, rfl⟩

/-- C1: for every well-formed directory tree and every configuration, the
walk's yields are in pre-order depth-first order relative to each
directory's listing order.  First conjunct: any two yields in sequence
order are strictly increasing in `preOrd t`, the pre-order induced by the
tree - an ancestor comes before everything inside it, and entries whose
paths diverge at some directory are ordered by the listing positions of
the children they diverge into; so a yielded directory `D` precedes every
yielded entry inside `D`, every yielded descendant of `D` precedes every
entry from a sibling of `D` listed after `D` (and follows every entry from
a sibling listed before `D`).  The remaining conjuncts spell out the two
path-level consequences: a later yield is never a proper ancestor of an
earlier one, and each yield's descendants form one contiguous block right
after it. -/
theorem claim_C1_preorder (s : ScanDir) (t : Tree) (rp : List String)
    (hw : wfTree t = true) :
    List.Pairwise
      (fun y z : List String × String =>
        preOrd t (y.1.drop rp.length) (z.1.drop rp.length) = true)
      (walk s (some t) rp).1 ∧
    List.Pairwise (fun y z : List String × String => spfx z.1 y.1 = false)
      (walk s (some t) rp).1 ∧
    (∀ l1 y l2, (walk s (some t) rp).1 = l1 ++ y :: l2 →
      ∃ a b, l2 = a ++ b ∧ (∀ z ∈ a, spfx y.1 z.1 = true) ∧
        (∀ z ∈ b, spfx y.1 z.1 = false)) := by
  rw [walk_eq]
  exact ⟨walkRef_preOrd s t rp hw, walkRef_pairwise s t rp hw,
    walkRef_contig s t rp hw⟩

/-- Witness for C1: the pre-order statement at a concrete nested tree. -/
theorem claim_C1_preorder_witness :
    wfTree wTree1 = true ∧
    (List.Pairwise
        (fun y z : List String × String =>
          preOrd wTree1 (y.1.drop (List.length ([] : List String)))
            (z.1.drop (List.length ([] : List String))) = true)
        (walk ScanDir.all (some wTree1) []).1 ∧
      List.Pairwise (fun y z : List String × String => spfx z.1 y.1 = false)
        (walk ScanDir.all (some wTree1) []).1 ∧
      (∀ l1 y l2, (walk ScanDir.all (some wTree1) []).1 = l1 ++ y :: l2 →
        ∃ a b, l2 = a ++ b ∧ (∀ z ∈ a, spfx y.1 z.1 = true) ∧
          (∀ z ∈ b, spfx y.1 z.1 = false))) :=
  ⟨by decide, claim_C1_preorder ScanDir.all wTree1 [] (by decide)⟩

/-- C4: a subdirectory `D` whose listing cannot be opened, in a walk with
`skip_dirs` off whose name-level filter accepts `D`'s name, is still
yielded, contributes exactly one `Io` error tagged with `D`'s path, and no
entry from inside `D` is yielded: the walk of `pre ++ [D] ++ post` is
exactly the walk of `pre`, then `D`'s own yield and single error, then the
walk of `post`; and (for a well-formed tree) no yield at all lies strictly
inside `D`'s path. -/
theorem claim_C4_unlistable_dir (s : ScanDir) (rp : List String)
    (pre post sub : Tree) (n : String)
    (hd : s.skip_dirs = false) (hn : name_matches s n = true)
    (hw : wfTree
      (pre.app (Tree.entC n true (some FType.directory) false sub post)) = true) :
    walk s
        (some (pre.app (Tree.entC n true (some FType.directory) false sub post)))
        rp =
      ((walk s (some pre) rp).1 ++ (rp ++ [n], n) :: (walk s (some post) rp).1,
       (walk s (some pre) rp).2 ++
         Error.io (rp ++ [n]) :: (walk s (some post) rp).2) ∧
    ∀ z ∈ (walk s
        (some (pre.app (Tree.entC n true (some FType.directory) false sub post)))
        rp).1,
      spfx (rp ++ [n]) z.1 = false := by
  have hdec :
      walkRef s rp
          (pre.app (Tree.entC n true (some FType.directory) false sub post)) =
        ((walkRef s rp pre).1 ++ (rp ++ [n], n) :: (walkRef s rp post).1,
         (walkRef s rp pre).2 ++
           Error.io (rp ++ [n]) :: (walkRef s rp post).2) := by
    rw [walkRef_app]
    simp [walkRef, hn, hd]
  refine ⟨?_, ?_⟩
  · rw [walk_eq, walk_eq, walk_eq, hdec]
  · intro z hz
    rw [walk_eq, hdec] at hz
    obtain ⟨hnpre, hnpost⟩ := wf_mid hw
    simp only [List.mem_append, List.mem_cons] at hz
    rcases hz with hz1 | hz2 | hz3
    · obtain ⟨m, hm, hp⟩ := walkRef_yield_path s pre rp z hz1
      exact sib_not_desc hp (fun he => hnpre (by rw [he]; exact hm))
    · rw [hz2]
      exact spfx_irrefl _
    · obtain ⟨m, hm, hp⟩ := walkRef_yield_path s post rp z hz3
      exact sib_not_desc hp (fun he => hnpost (by rw [he]; exact hm))

/-- Witness for C4: an unlistable subdirectory `d` between two files, with
a would-be child `c` that is indeed never yielded. -/
theorem claim_C4_unlistable_dir_witness :
    ScanDir.all.skip_dirs = false ∧
    name_matches ScanDir.all "d" = true ∧
    wfTree ((Tree.entC "a" true (some FType.file) false Tree.nilL
        Tree.nilL).app
      (Tree.entC "d" true (some FType.directory) false
        (Tree.entC "c" true (some FType.file) false Tree.nilL Tree.nilL)
        (Tree.entC "b" true (some FType.file) false Tree.nilL Tree.nilL))) =
      true ∧
    (walk ScanDir.all
        (some ((Tree.entC "a" true (some FType.file) false Tree.nilL
            Tree.nilL).app
          (Tree.entC "d" true (some FType.directory) false
            (Tree.entC "c" true (some FType.file) false Tree.nilL Tree.nilL)
            (Tree.entC "b" true (some FType.file) false Tree.nilL
              Tree.nilL)))) [] =
      ((walk ScanDir.all
          (some (Tree.entC "a" true (some FType.file) false Tree.nilL
            Tree.nilL)) []).1 ++
        ([] ++ ["d"], "d") ::
          (walk ScanDir.all
            (some (Tree.entC "b" true (some FType.file) false Tree.nilL
              Tree.nilL)) []).1,
       (walk ScanDir.all
          (some (Tree.entC "a" true (some FType.file) false Tree.nilL
            Tree.nilL)) []).2 ++
         Error.io ([] ++ ["d"]) ::
           (walk ScanDir.all
             (some (Tree.entC "b" true (some FType.file) false Tree.nilL
               Tree.nilL)) []).2) ∧
    ∀ z ∈ (walk ScanDir.all
        (some ((Tree.entC "a" true (some FType.file) false Tree.nilL
            Tree.nilL).app
          (Tree.entC "d" true (some FType.directory) false
            (Tree.entC "c" true (some FType.file) false Tree.nilL Tree.nilL)
            (Tree.entC "b" true (some FType.file) false Tree.nilL
              Tree.nilL)))) []).1,
      spfx ([] ++ ["d"]) z.1 = false) :=
  ⟨rfl, by decide, by decide,
    claim_C4_unlistable_dir ScanDir.all []
      (Tree.entC "a" true (some FType.file) false Tree.nilL Tree.nilL)
      (Tree.entC "b" true (some FType.file) false Tree.nilL Tree.nilL)
      (Tree.entC "c" true (some FType.file) false Tree.nilL Tree.nilL)
      "d" rfl (by decide) (by decide)⟩

/-- C10: the recursive walker classifies every entry by its own
non-followed type: a symlink entry (even one pointing at a directory, with
any would-be target listing) is never descended into, never triggers
target resolution or an error, and is yielded exactly when the name-level
filter accepts it and `skip_files` is off - whatever the value of
`skip_symlinks`, `skip_dirs` or `skip_files`. -/
theorem claim_C10_symlink_never_resolved (s : ScanDir) (rp : List String)
    (pre post sub : Tree) (n : String) (listable : Bool) :
    walk s
        (some (pre.app (Tree.entC n true (some FType.symlink) listable sub
          post))) rp =
      ((walk s (some pre) rp).1 ++
        ((if name_matches s n && !s.skip_files then [(rp ++ [n], n)] else [])
          ++ (walk s (some post) rp).1),
       (walk s (some pre) rp).2 ++ (walk s (some post) rp).2) := by
  rw [walk_eq, walk_eq, walk_eq, walkRef_app]
  cases hnm : name_matches s n with
  | false => simp [walkRef, hnm]
  | true =>
    cases hsf : s.skip_files with
    | true => simp [walkRef, hnm, hsf]
    | false => simp [walkRef, hnm, hsf]

end Scan
